import Mathlib

/-!
# Verification of the bounded grammar-equivalence checker (`main.py`)

A shallow embedding of the core of the repository: the bounded derivation
enumerator `generate_strings`, the structural analyzer
`analyze_grammar_structure`, the symbol-mapping search `try_symbol_mappings`,
the mapping applier `apply_mapping` and the orchestrating `check_equivalence`.

Python strings are modelled as `List Char`, Python dicts as association lists
(with the dict's insertion order), Python sets as `Finset`.  The `while` loop
of `generate_strings` is modelled by the fuel-indexed `genLoop`, where one unit
of fuel corresponds to one loop iteration; `generate_strings` runs the loop
with a fuel that is proved sufficient (`genLoop_isSome`).
-/

/-- A derivation string / production: a Python string as a list of characters. -/
abbrev Str := List Char

/-- A grammar: Python dict `{non_terminal: [productions]}` as an association
list in insertion order. -/
abbrev Grammar := List (Str × List Str)

/-- A symbol mapping: Python dict `{nt1: nt2}` as an association list. -/
abbrev Mapping := List (Str × Str)

/-- Python dict lookup `d[k]` / `k in d` on an association list. -/
def alookup {α : Type} (l : List (Str × α)) (k : Str) : Option α :=
  (l.find? (fun e => e.1 == k)).map (fun e => e.2)

/-- `all(not c.isupper() for c in derivacion)`: no non-terminal character. -/
def allTerminal (s : Str) : Bool :=
  s.all (fun c => !c.isUpper)

/-- `derivacion.replace('*', '')`: remove every epsilon marker. -/
def strip (s : Str) : Str :=
  s.filter (fun c => !(c == '*'))

/-- Locate the leftmost uppercase (non-terminal) character:
returns `(prefixPart, nt, suffixPart)` with `s = prefixPart ++ nt :: suffixPart`,
mirroring `derivacion[:i]`, `derivacion[i]`, `derivacion[i+1:]` in the source. -/
def leftSplit : Str → Option (Str × Char × Str)
  | [] => none
  | c :: cs =>
    if c.isUpper then some ([], c, cs)
    else (leftSplit cs).map (fun p => (c :: p.1, p.2.1, p.2.2))

/-- The list of one-step successors of a derivation string: substitute each
production of the leftmost non-terminal in place of that character.
(Empty when the string is all-terminal or the non-terminal has no entry.) -/
def expand (g : Grammar) (s : Str) : List Str :=
  match leftSplit s with
  | none => []
  | some (pre, c, post) =>
    match alookup g [c] with
    | none => []
    | some prods => prods.map (fun p => pre ++ p ++ post)

/-- Largest production count over all grammar entries (used only to bound the
loop's iteration count). -/
def maxProds (g : Grammar) : Nat :=
  (g.map (fun e => e.2.length)).foldr max 0

/-- Termination measure of the work queue: every loop iteration strictly
decreases it. -/
def measureQ (g : Grammar) (D : Nat) (q : List (Str × Nat)) : Nat :=
  (q.map (fun sd => (maxProds g + 1) ^ (D + 1 - sd.2))).sum

/-- The `while cola:` loop of `generate_strings`, one fuel unit per iteration.
State: work queue of `(derivacion, profundidad)` pairs, `visited`, `resultados`.
Returns `none` if the fuel is exhausted before the queue empties. -/
def genLoop (g : Grammar) (D L : Nat) :
    Nat → List (Str × Nat) → Finset Str → Finset Str → Option (Finset Str)
  | 0, _, _, _ => none
  | _ + 1, [], _, r => some r
  | f + 1, (s, d) :: rest, v, r =>
    if L < s.length ∨ s ∈ v then
      genLoop g D L f rest v r
    else if allTerminal s then
      genLoop g D L f rest (insert s v) (insert (strip s) r)
    else if D ≤ d then
      genLoop g D L f rest (insert s v) r
    else
      match leftSplit s with
      | none => genLoop g D L f rest (insert s v) r
      | some (pre, c, post) =>
        match alookup g [c] with
        | none => genLoop g D L f rest (insert s v) r
        | some prods =>
          genLoop g D L f
            (rest ++ prods.map (fun p => (pre ++ p ++ post, d + 1)))
            (insert s v) r

/-- A fuel amount that always lets `genLoop` run to completion
(one more than the initial queue measure). -/
def fuelFor (g : Grammar) (D : Nat) : Nat :=
  (maxProds g + 1) ^ (D + 1) + 1

/-- `generate_strings(grammar, start, max_depth, max_len)`: the set of terminal
strings derivable from `start` within the depth and length bounds. -/
def generate_strings (g : Grammar) (start : Str) (D L : Nat) : Finset Str :=
  (genLoop g D L (fuelFor g D) [(start, 0)] ∅ ∅).getD ∅

/-- `find_non_terminals(grammar)`: the set of grammar keys. -/
def find_non_terminals (g : Grammar) : Finset Str :=
  (g.map (fun e => e.1)).toFinset

/-- The per-non-terminal record built by `analyze_grammar_structure`.
`terminal_positions` is the defaultdict of terminal-occurrence counts,
modelled as a count function. -/
structure Features where
  num_prods : Nat
  num_epsilon : Nat
  num_terminals : Nat
  num_nt_only : Nat
  num_mixed : Nat
  terminal_positions : Char → Nat

/-- Classification of one production inside `analyze_grammar_structure`:
`prod` contains a terminal character (not uppercase, not the epsilon marker). -/
def hasTerminalChar (prod : Str) : Bool :=
  prod.any (fun c => !c.isUpper && !(c == '*'))

/-- Classification of one production inside `analyze_grammar_structure`:
`prod` contains an uppercase (non-terminal) character. -/
def hasNonTerminalChar (prod : Str) : Bool :=
  prod.any (fun c => c.isUpper)

/-- The features record of one key's production list in
`analyze_grammar_structure`. -/
def featuresOf (prods : List Str) : Features where
  num_prods := prods.length
  num_epsilon := (prods.filter (fun p => p == ['*'])).length
  num_terminals :=
    (prods.filter (fun p =>
      !(p == ['*']) && (hasTerminalChar p && !hasNonTerminalChar p))).length
  num_nt_only :=
    (prods.filter (fun p =>
      !(p == ['*']) && (hasNonTerminalChar p && !hasTerminalChar p))).length
  num_mixed :=
    (prods.filter (fun p =>
      !(p == ['*']) && (hasTerminalChar p && hasNonTerminalChar p))).length
  terminal_positions := fun c =>
    if c.isUpper ∨ c = '*' then 0
    else ((prods.filter (fun p => !(p == ['*']))).map
      (fun p => p.count c)).sum

/-- `analyze_grammar_structure(grammar)`: a features record for every key of
the grammar (`find_non_terminals` returns exactly the keys). -/
def analyze_grammar_structure (g : Grammar) : List (Str × Features) :=
  g.map (fun e => (e.1, featuresOf e.2))

/-- All ways to pick one element out of a list: `(picked, remaining)` pairs. -/
def removals {α : Type} : List α → List (α × List α)
  | [] => []
  | x :: xs => (x, xs) :: (removals xs).map (fun p => (p.1, x :: p.2))

/-- `itertools.permutations(l, n)`: all length-`n` permutations without
repetition drawn from `l` (enumeration order is not semantically relevant). -/
def permutationsLen {α : Type} : Nat → List α → List (List α)
  | 0, _ => [[]]
  | n + 1, l =>
    (removals l).flatMap (fun p => (permutationsLen n p.2).map (fun t => p.1 :: t))

/-- One character of `apply_mapping`'s production rewriting:
`mapping[c] if c.isupper() and c in mapping else c`. -/
def mapChar (m : Mapping) (c : Char) : Str :=
  if c.isUpper then (alookup m [c]).getD [c] else [c]

/-- `new_grammar[k].append`-style accumulation on an association list
(`defaultdict(list)` semantics). -/
def addProds (acc : Grammar) (k : Str) (ps : List Str) : Grammar :=
  match acc with
  | [] => [(k, ps)]
  | e :: rest => if e.1 = k then (e.1, e.2 ++ ps) :: rest else e :: addProds rest k ps

/-- `apply_mapping(grammar, mapping)`: rewrite heads and production characters
through the mapping, merge production lists of identically-mapped heads, then
deduplicate each resulting production list. -/
def apply_mapping (grammar : Grammar) (mapping : Mapping) : Grammar :=
  let folded := grammar.foldl (fun acc e =>
    addProds acc ((alookup mapping e.1).getD e.1)
      (e.2.map (fun prod => (prod.map (mapChar mapping)).flatten))) []
  folded.map (fun e => (e.1, e.2.dedup))

/-- `try_symbol_mappings(grammar1, grammar2, start1, start2, max_depth)`:
fix `start1 ↦ start2`, and (only when grammar1 has at most 6 non-terminals)
try every injective assignment of grammar2's remaining non-terminals to
grammar1's remaining ones, returning the first mapping under which the two
grammars enumerate the same strings at depth `max_depth` and the default
length cap 15. -/
def try_symbol_mappings (g1 g2 : Grammar) (s1 s2 : Str) (max_depth : Nat) :
    Option Mapping :=
  let nts1 := (g1.map (fun e => e.1)).dedup
  let nts2 := (g2.map (fun e => e.1)).dedup
  if nts1.length ≤ 6 then
    let other1 := nts1.filter (fun nt => !(nt == s1))
    let other2 := nts2.filter (fun nt => !(nt == s2))
    (permutationsLen other1.length other2).findSome? (fun perm =>
      let mapping : Mapping := (s1, s2) :: other1.zip perm
      let mapped_grammar := apply_mapping g1 mapping
      let gen1 := generate_strings mapped_grammar s2 max_depth 15
      let gen2 := generate_strings g2 s2 max_depth 15
      if gen1 = gen2 then some mapping else none)
  else
    none

/-- `check_equivalence(grammar1, grammar2, start1, start2, max_depth, max_len)`:
direct comparison, then mapping search, then comparison under the found
mapping (display calls of the source are presentation only and omitted). -/
def check_equivalence (g1 g2 : Grammar) (s1 s2 : Str) (D L : Nat) : Bool :=
  let gen1 := generate_strings g1 s1 D L
  let gen2 := generate_strings g2 s2 D L
  if gen1 = gen2 then
    true
  else
    match try_symbol_mappings g1 g2 s1 s2 D with
    | some mapping =>
      let mapped_grammar := apply_mapping g1 mapping
      let gen1_mapped := generate_strings mapped_grammar s2 D L
      gen1_mapped = gen2
    | none => false

/-- The identity mapping on a grammar's non-terminal alphabet (its keys). -/
def idMapping (g : Grammar) : Mapping :=
  (g.map (fun e => e.1)).dedup.map (fun k => (k, k))

/-- `ReachF g L s k t`: `t` is reachable from `s` by at most `k` leftmost
rewriting steps in which every expanded string has length at most `L`. -/
inductive ReachF (g : Grammar) (L : Nat) : Str → Nat → Str → Prop
  | refl (s : Str) (k : Nat) : ReachF g L s k s
  | step {s s' t : Str} {k : Nat} (hlen : s.length ≤ L) (hmem : s' ∈ expand g s)
      (h : ReachF g L s' k t) : ReachF g L s (k + 1) t

/-! ## Basic lemmas about the symbol-level helpers -/

theorem leftSplit_eq_none_iff (s : Str) : leftSplit s = none ↔ allTerminal s = true := by
  induction s with
  | nil => simp [leftSplit, allTerminal]
  | cons c cs ih =>
    by_cases hc : c.isUpper
    · simp [leftSplit, hc, allTerminal]
    · have h1 : leftSplit (c :: cs) = (leftSplit cs).map (fun p => (c :: p.1, p.2.1, p.2.2)) := by
        simp [leftSplit, hc]
      rw [h1, Option.map_eq_none', ih]
      simp [allTerminal, hc]

theorem allTerminal_expand_nil {g : Grammar} {s : Str} (h : allTerminal s = true) :
    expand g s = [] := by
  unfold expand
  rw [(leftSplit_eq_none_iff s).mpr h]

theorem not_allTerminal_of_mem_expand {g : Grammar} {s s' : Str}
    (h : s' ∈ expand g s) : allTerminal s = false := by
  by_contra hco
  rw [Bool.not_eq_false] at hco
  rw [allTerminal_expand_nil hco] at h
  exact List.not_mem_nil s' h

theorem expand_of_split {g : Grammar} {s pre post : Str} {c : Char} {prods : List Str}
    (hsplit : leftSplit s = some (pre, c, post)) (hlk : alookup g [c] = some prods) :
    expand g s = prods.map (fun p => pre ++ p ++ post) := by
  simp only [expand, hsplit, hlk]

theorem expand_nil_of_no_prods {g : Grammar} {s pre post : Str} {c : Char}
    (hsplit : leftSplit s = some (pre, c, post)) (hlk : alookup g [c] = none) :
    expand g s = [] := by
  simp only [expand, hsplit, hlk]

theorem strip_length_le (s : Str) : (strip s).length ≤ s.length :=
  List.length_filter_le _ s

theorem mem_of_mem_strip {s : Str} {c : Char} (h : c ∈ strip s) : c ∈ s :=
  List.mem_of_mem_filter h

/-! ## Lemmas about `alookup` and `maxProds` -/

theorem alookup_mem {α : Type} {l : List (Str × α)} {k : Str} {a : α}
    (h : alookup l k = some a) : (k, a) ∈ l := by
  unfold alookup at h
  rcases Option.map_eq_some'.mp h with ⟨e, he, heq⟩
  have hk : e.1 = k := by
    have := List.find?_some he
    simpa using this
  have hm := List.mem_of_find?_eq_some he
  subst heq
  rw [← hk]
  exact hm

theorem le_foldr_max {a : Nat} {l : List Nat} (h : a ∈ l) : a ≤ l.foldr max 0 := by
  induction l with
  | nil => simp at h
  | cons b l ih =>
    rcases List.mem_cons.mp h with h1 | h2
    · subst h1; exact le_max_left _ _
    · exact le_trans (ih h2) (le_max_right _ _)

theorem length_le_maxProds {g : Grammar} {k : Str} {ps : List Str}
    (h : alookup g k = some ps) : ps.length ≤ maxProds g := by
  have hmem : (k, ps) ∈ g := alookup_mem h
  have hmem2 : ps.length ∈ g.map (fun e => e.2.length) :=
    List.mem_map.mpr ⟨(k, ps), hmem, rfl⟩
  exact le_foldr_max hmem2

/-! ## The termination measure of the work queue -/

theorem measureQ_nil (g : Grammar) (D : Nat) : measureQ g D [] = 0 := rfl

theorem measureQ_cons (g : Grammar) (D : Nat) (s : Str) (d : Nat) (q : List (Str × Nat)) :
    measureQ g D ((s, d) :: q) = (maxProds g + 1) ^ (D + 1 - d) + measureQ g D q := by
  simp [measureQ]

theorem measureQ_append (g : Grammar) (D : Nat) (q₁ q₂ : List (Str × Nat)) :
    measureQ g D (q₁ ++ q₂) = measureQ g D q₁ + measureQ g D q₂ := by
  simp [measureQ]

theorem measureQ_tail_lt (g : Grammar) (D : Nat) (s : Str) (d : Nat) (q : List (Str × Nat)) :
    measureQ g D q < measureQ g D ((s, d) :: q) := by
  rw [measureQ_cons]
  have : 0 < (maxProds g + 1) ^ (D + 1 - d) := pow_pos (Nat.succ_pos _) _
  omega

theorem measureQ_map_pair (g : Grammar) (D : Nat) (d : Nat) (h : Str → Str) (l : List Str) :
    measureQ g D (l.map (fun p => (h p, d))) = l.length * (maxProds g + 1) ^ (D + 1 - d) := by
  induction l with
  | nil => simp [measureQ]
  | cons p l ih =>
    rw [List.map_cons, measureQ_cons, ih, List.length_cons]
    ring

theorem measureQ_expand_lt {g : Grammar} {D d : Nat} {c : Char} {prods : List Str}
    (hd : d < D) (hlk : alookup g [c] = some prods)
    (s pre post : Str) (rest : List (Str × Nat)) :
    measureQ g D (rest ++ prods.map (fun p => (pre ++ p ++ post, d + 1))) <
      measureQ g D ((s, d) :: rest) := by
  rw [measureQ_append, measureQ_cons, measureQ_map_pair g D (d + 1) (fun p => pre ++ p ++ post)]
  have hP : prods.length ≤ maxProds g := length_le_maxProds hlk
  have he1 : D + 1 - d = (D - d) + 1 := by omega
  have he2 : D + 1 - (d + 1) = D - d := by omega
  rw [he1, he2, pow_succ]
  have hpos : 0 < (maxProds g + 1) ^ (D - d) := pow_pos (Nat.succ_pos _) _
  have : prods.length * (maxProds g + 1) ^ (D - d) <
      (maxProds g + 1) ^ (D - d) * (maxProds g + 1) := by
    rw [mul_comm ((maxProds g + 1) ^ (D - d)) (maxProds g + 1)]
    exact Nat.mul_lt_mul_of_lt_of_le (by omega) le_rfl hpos
  omega

/-! ## Step equations for the loop body -/

theorem genLoop_skip {g : Grammar} {D L : Nat} {f : Nat} {s : Str} {d : Nat}
    {rest : List (Str × Nat)} {v r : Finset Str} (h : L < s.length ∨ s ∈ v) :
    genLoop g D L (f + 1) ((s, d) :: rest) v r = genLoop g D L f rest v r := by
  simp only [genLoop, if_pos h]

theorem genLoop_term {g : Grammar} {D L : Nat} {f : Nat} {s : Str} {d : Nat}
    {rest : List (Str × Nat)} {v r : Finset Str}
    (h1 : ¬(L < s.length ∨ s ∈ v)) (h2 : allTerminal s = true) :
    genLoop g D L (f + 1) ((s, d) :: rest) v r =
      genLoop g D L f rest (insert s v) (insert (strip s) r) := by
  simp only [genLoop, if_neg h1, if_pos h2]

theorem genLoop_depth {g : Grammar} {D L : Nat} {f : Nat} {s : Str} {d : Nat}
    {rest : List (Str × Nat)} {v r : Finset Str}
    (h1 : ¬(L < s.length ∨ s ∈ v)) (h2 : allTerminal s = false) (h3 : D ≤ d) :
    genLoop g D L (f + 1) ((s, d) :: rest) v r =
      genLoop g D L f rest (insert s v) r := by
  have h2' : ¬(allTerminal s = true) := by simp [h2]
  simp only [genLoop, if_neg h1, if_neg h2', if_pos h3]

theorem genLoop_nosplit {g : Grammar} {D L : Nat} {f : Nat} {s : Str} {d : Nat}
    {rest : List (Str × Nat)} {v r : Finset Str}
    (h1 : ¬(L < s.length ∨ s ∈ v)) (h2 : allTerminal s = false) (h3 : ¬(D ≤ d))
    (hsp : leftSplit s = none) :
    genLoop g D L (f + 1) ((s, d) :: rest) v r =
      genLoop g D L f rest (insert s v) r := by
  have h2' : ¬(allTerminal s = true) := by simp [h2]
  simp only [genLoop, if_neg h1, if_neg h2', if_neg h3, hsp]

theorem genLoop_noprods {g : Grammar} {D L : Nat} {f : Nat} {s pre post : Str} {c : Char}
    {d : Nat} {rest : List (Str × Nat)} {v r : Finset Str}
    (h1 : ¬(L < s.length ∨ s ∈ v)) (h2 : allTerminal s = false) (h3 : ¬(D ≤ d))
    (hsp : leftSplit s = some (pre, c, post)) (hlk : alookup g [c] = none) :
    genLoop g D L (f + 1) ((s, d) :: rest) v r =
      genLoop g D L f rest (insert s v) r := by
  have h2' : ¬(allTerminal s = true) := by simp [h2]
  simp only [genLoop, if_neg h1, if_neg h2', if_neg h3, hsp, hlk]

theorem genLoop_expand {g : Grammar} {D L : Nat} {f : Nat} {s pre post : Str} {c : Char}
    {d : Nat} {rest : List (Str × Nat)} {v r : Finset Str} {prods : List Str}
    (h1 : ¬(L < s.length ∨ s ∈ v)) (h2 : allTerminal s = false) (h3 : ¬(D ≤ d))
    (hsp : leftSplit s = some (pre, c, post)) (hlk : alookup g [c] = some prods) :
    genLoop g D L (f + 1) ((s, d) :: rest) v r =
      genLoop g D L f (rest ++ prods.map (fun p => (pre ++ p ++ post, d + 1)))
        (insert s v) r := by
  have h2' : ¬(allTerminal s = true) := by simp [h2]
  simp only [genLoop, if_neg h1, if_neg h2', if_neg h3, hsp, hlk]

/-! ## The loop always finishes within `fuelFor` iterations -/

theorem genLoop_isSome (g : Grammar) (D L : Nat) :
    ∀ (f : Nat) (q : List (Str × Nat)) (v r : Finset Str),
      measureQ g D q < f → (genLoop g D L f q v r).isSome = true := by
  intro f
  induction f with
  | zero => intro q v r hm; exact absurd hm (Nat.not_lt_zero _)
  | succ f ih =>
    intro q v r hm
    match q with
    | [] => simp [genLoop]
    | (s, d) :: rest =>
      have hpow : 0 < (maxProds g + 1) ^ (D + 1 - d) := pow_pos (Nat.succ_pos _) _
      have hc := measureQ_cons g D s d rest
      have hrest : measureQ g D rest < f := by omega
      by_cases h1 : L < s.length ∨ s ∈ v
      · rw [genLoop_skip h1]; exact ih rest v r hrest
      · by_cases hT : allTerminal s = true
        · rw [genLoop_term h1 hT]; exact ih _ _ _ hrest
        · have hT' : allTerminal s = false := by simpa using hT
          by_cases h3 : D ≤ d
          · rw [genLoop_depth h1 hT' h3]; exact ih _ _ _ hrest
          · rcases hsp : leftSplit s with _ | ⟨pre, c, post⟩
            · rw [genLoop_nosplit h1 hT' h3 hsp]; exact ih _ _ _ hrest
            · rcases hlk : alookup g [c] with _ | prods
              · rw [genLoop_noprods h1 hT' h3 hsp hlk]; exact ih _ _ _ hrest
              · rw [genLoop_expand h1 hT' h3 hsp hlk]
                have hlt := measureQ_expand_lt (show d < D by omega) hlk s pre post rest
                exact ih _ _ _ (by omega)

theorem genLoop_subset (g : Grammar) (D L : Nat) :
    ∀ (f : Nat) (q : List (Str × Nat)) (v r res : Finset Str),
      genLoop g D L f q v r = some res → r ⊆ res := by
  intro f
  induction f with
  | zero => intro q v r res h; exact absurd h (by simp [genLoop])
  | succ f ih =>
    intro q v r res h
    match q with
    | [] =>
      simp only [genLoop, Option.some.injEq] at h
      subst h; exact subset_rfl
    | (s, d) :: rest =>
      by_cases h1 : L < s.length ∨ s ∈ v
      · rw [genLoop_skip h1] at h; exact ih _ _ _ _ h
      · by_cases hT : allTerminal s = true
        · rw [genLoop_term h1 hT] at h
          exact (Finset.subset_insert _ _).trans (ih _ _ _ _ h)
        · have hT' : allTerminal s = false := by simpa using hT
          by_cases h3 : D ≤ d
          · rw [genLoop_depth h1 hT' h3] at h; exact ih _ _ _ _ h
          · rcases hsp : leftSplit s with _ | ⟨pre, c, post⟩
            · rw [genLoop_nosplit h1 hT' h3 hsp] at h; exact ih _ _ _ _ h
            · rcases hlk : alookup g [c] with _ | prods
              · rw [genLoop_noprods h1 hT' h3 hsp hlk] at h; exact ih _ _ _ _ h
              · rw [genLoop_expand h1 hT' h3 hsp hlk] at h; exact ih _ _ _ _ h

/-! ## Lemmas about bounded reachability -/

theorem ReachF.mono_k {g : Grammar} {L : Nat} {s t : Str} {k k' : Nat}
    (h : ReachF g L s k t) (hk : k ≤ k') : ReachF g L s k' t := by
  induction h generalizing k' with
  | refl s k => exact ReachF.refl s k'
  | step hlen hmem h ih =>
    cases k' with
    | zero => exact absurd hk (by omega)
    | succ m => exact ReachF.step hlen hmem (ih (by omega))

theorem ReachF.mono_L {g : Grammar} {L L' : Nat} {s t : Str} {k : Nat}
    (hL : L ≤ L') (h : ReachF g L s k t) : ReachF g L' s k t := by
  induction h with
  | refl s k => exact ReachF.refl s k
  | step hlen hmem h ih => exact ReachF.step (le_trans hlen hL) hmem ih

theorem ReachF.eq_of_zero {g : Grammar} {L : Nat} {s t : Str}
    (h : ReachF g L s 0 t) : t = s := by
  cases h with
  | refl => rfl

theorem ReachF.start_length_le {g : Grammar} {L : Nat} {s t : Str} {k : Nat}
    (h : ReachF g L s k t) (ht : t.length ≤ L) : s.length ≤ L := by
  cases h with
  | refl => exact ht
  | step hlen hmem h => exact hlen

theorem ReachF.snoc {g : Grammar} {L : Nat} {s u u' : Str} {k : Nat}
    (h : ReachF g L s k u) (hu : u.length ≤ L) (hm : u' ∈ expand g u) :
    ReachF g L s (k + 1) u' := by
  induction h with
  | refl s k => exact ReachF.step hu hm (ReachF.refl u' k)
  | step hlen hmem h ih => exact ReachF.step hlen hmem (ih hu hm)

theorem ReachF.eq_of_expand_nil {g : Grammar} {L : Nat} {s t : Str} {k : Nat}
    (h : ReachF g L s k t) (hnil : expand g s = []) : t = s := by
  cases h with
  | refl => rfl
  | step hlen hmem h => rw [hnil] at hmem; exact absurd hmem (List.not_mem_nil _)

/-! ## Soundness: everything the loop collects is a bounded derivation -/

theorem genLoop_sound (g : Grammar) (D L : Nat) (base : Str) :
    ∀ (f : Nat) (q : List (Str × Nat)) (v r res : Finset Str),
      genLoop g D L f q v r = some res →
      (∀ sd ∈ q, ReachF g L base sd.2 sd.1 ∧ sd.2 ≤ D) →
      (∀ w ∈ r, ∃ t, ReachF g L base D t ∧ allTerminal t = true ∧
        t.length ≤ L ∧ strip t = w) →
      ∀ w ∈ res, ∃ t, ReachF g L base D t ∧ allTerminal t = true ∧
        t.length ≤ L ∧ strip t = w := by
  intro f
  induction f with
  | zero => intro q v r res h; exact absurd h (by simp [genLoop])
  | succ f ih =>
    intro q v r res h hq hr
    match q with
    | [] =>
      simp only [genLoop, Option.some.injEq] at h
      subst h; exact hr
    | (s, d) :: rest =>
      have hqr : ∀ sd ∈ rest, ReachF g L base sd.2 sd.1 ∧ sd.2 ≤ D :=
        fun sd hsd => hq sd (List.mem_cons_of_mem _ hsd)
      have hh1 : ReachF g L base d s := (hq (s, d) (List.mem_cons_self _ _)).1
      have hh2 : d ≤ D := (hq (s, d) (List.mem_cons_self _ _)).2
      by_cases h1 : L < s.length ∨ s ∈ v
      · rw [genLoop_skip h1] at h; exact ih _ _ _ _ h hqr hr
      · have hlen : s.length ≤ L := le_of_not_lt (fun hh => h1 (Or.inl hh))
        by_cases hT : allTerminal s = true
        · rw [genLoop_term h1 hT] at h
          refine ih _ _ _ _ h hqr ?_
          intro w hw
          rcases Finset.mem_insert.mp hw with hw1 | hw2
          · exact ⟨s, ReachF.mono_k hh1 hh2, hT, hlen, hw1.symm⟩
          · exact hr w hw2
        · have hT' : allTerminal s = false := by simpa using hT
          by_cases h3 : D ≤ d
          · rw [genLoop_depth h1 hT' h3] at h; exact ih _ _ _ _ h hqr hr
          · rcases hsp : leftSplit s with _ | ⟨pre, c, post⟩
            · rw [genLoop_nosplit h1 hT' h3 hsp] at h; exact ih _ _ _ _ h hqr hr
            · rcases hlk : alookup g [c] with _ | prods
              · rw [genLoop_noprods h1 hT' h3 hsp hlk] at h
                exact ih _ _ _ _ h hqr hr
              · rw [genLoop_expand h1 hT' h3 hsp hlk] at h
                refine ih _ _ _ _ h ?_ hr
                intro sd hsd
                rcases List.mem_append.mp hsd with hsd1 | hsd2
                · exact hqr sd hsd1
                · rcases List.mem_map.mp hsd2 with ⟨p, hp, hpe⟩
                  subst hpe
                  constructor
                  · refine ReachF.snoc hh1 hlen ?_
                    rw [expand_of_split hsp hlk]
                    exact List.mem_map.mpr ⟨p, hp, rfl⟩
                  · show d + 1 ≤ D
                    omega

/-! ## Completeness: every bounded derivation is collected despite the
visited-set pruning.  The ghost function `phi` records the depth at which each
visited string was popped. -/

theorem expand_nil_of_split_none {g : Grammar} {s : Str} (hsp : leftSplit s = none) :
    expand g s = [] := by
  simp only [expand, hsp]

theorem sorted_map_const {α : Type} (l : List α) (k : Nat) :
    (l.map (fun _ => k)).Sorted (fun a b => a ≤ b) := by
  induction l with
  | nil => simp
  | cons x l ih =>
    rw [List.map_cons]
    refine List.sorted_cons.mpr ⟨?_, ih⟩
    intro b hb
    rcases List.mem_map.mp hb with ⟨_, _, hbe⟩
    omega

theorem reach_cover (g : Grammar) (D L : Nat) (q : List (Str × Nat))
    (v r res : Finset Str) (phi : Str → Nat)
    (hv2 : ∀ s ∈ v, allTerminal s = true → strip s ∈ r)
    (hv3 : ∀ s ∈ v, allTerminal s = false → phi s < D →
      ∀ s' ∈ expand g s, s'.length ≤ L →
        (s' ∈ v ∧ phi s' ≤ phi s + 1) ∨ ∃ d', (s', d') ∈ q ∧ d' ≤ phi s + 1)
    (hr : r ⊆ res)
    (hCa : ∀ sd ∈ q, ∀ t, allTerminal t = true → t.length ≤ L →
      ReachF g L sd.1 (D - sd.2) t → strip t ∈ res) :
    ∀ {n : Nat} {s t : Str}, ReachF g L s n t → allTerminal t = true →
      t.length ≤ L → s ∈ v → n ≤ D - phi s → strip t ∈ res := by
  intro n s t h
  induction h with
  | refl s k =>
    intro ht htl hs _
    exact hr (hv2 s hs ht)
  | step hlen hmem hsub ih =>
    rename_i s s' t k
    intro ht htl hs hn
    have hTf : allTerminal s = false := not_allTerminal_of_mem_expand hmem
    have hphi : phi s < D := by omega
    have hs'len : s'.length ≤ L := ReachF.start_length_le hsub htl
    rcases hv3 s hs hTf hphi s' hmem hs'len with ⟨hv', hle⟩ | ⟨d', hq', hle⟩
    · exact ih ht htl hv' (by omega)
    · exact hCa (s', d') hq' t ht htl (ReachF.mono_k hsub (by omega))

theorem hv1_shift {L : Nat} {s₀ : Str} {v : Finset Str}
    (hv1 : ∀ s ∈ v, s.length ≤ L) (hlen : s₀.length ≤ L) :
    ∀ s ∈ insert s₀ v, s.length ≤ L := by
  intro s hs
  rcases Finset.mem_insert.mp hs with rfl | hs
  · exact hlen
  · exact hv1 s hs

theorem hv2_shift_keep {s₀ : Str} {v r : Finset Str}
    (hv2 : ∀ s ∈ v, allTerminal s = true → strip s ∈ r)
    (hT' : allTerminal s₀ = false) :
    ∀ s ∈ insert s₀ v, allTerminal s = true → strip s ∈ r := by
  intro s hs hTs
  rcases Finset.mem_insert.mp hs with rfl | hs
  · rw [hT'] at hTs; exact absurd hTs (by simp)
  · exact hv2 s hs hTs

theorem hvq_shift {s₀ : Str} {d₀ : Nat} {newq : List (Str × Nat)} {v : Finset Str}
    {phi : Str → Nat} (hs₀nv : s₀ ∉ v)
    (hnew : ∀ b ∈ newq, d₀ ≤ b.2)
    (hold : ∀ s ∈ v, ∀ b ∈ newq, phi s ≤ b.2) :
    ∀ s ∈ insert s₀ v, ∀ b ∈ newq, (if s = s₀ then d₀ else phi s) ≤ b.2 := by
  intro s hs b hb
  rcases Finset.mem_insert.mp hs with rfl | hs
  · rw [if_pos rfl]; exact hnew b hb
  · have hne : s ≠ s₀ := fun he => hs₀nv (he ▸ hs)
    rw [if_neg hne]; exact hold s hs b hb

theorem hv3_shift {g : Grammar} {D L : Nat} {s₀ : Str} {d₀ : Nat}
    {rest newq : List (Str × Nat)} {v : Finset Str} {phi : Str → Nat}
    (hs₀nv : s₀ ∉ v)
    (hvqhead : ∀ s ∈ v, phi s ≤ d₀)
    (hv3 : ∀ s ∈ v, allTerminal s = false → phi s < D →
      ∀ s' ∈ expand g s, s'.length ≤ L →
        (s' ∈ v ∧ phi s' ≤ phi s + 1) ∨ ∃ d', (s', d') ∈ (s₀, d₀) :: rest ∧ d' ≤ phi s + 1)
    (hrest : ∀ e ∈ rest, e ∈ newq)
    (hs₀case : allTerminal s₀ = false → d₀ < D →
      ∀ s' ∈ expand g s₀, s'.length ≤ L →
        (s' ∈ insert s₀ v ∧ (if s' = s₀ then d₀ else phi s') ≤ d₀ + 1) ∨
          ∃ d', (s', d') ∈ newq ∧ d' ≤ d₀ + 1) :
    ∀ s ∈ insert s₀ v, allTerminal s = false → (if s = s₀ then d₀ else phi s) < D →
      ∀ s' ∈ expand g s, s'.length ≤ L →
        (s' ∈ insert s₀ v ∧
            (if s' = s₀ then d₀ else phi s') ≤ (if s = s₀ then d₀ else phi s) + 1) ∨
          ∃ d', (s', d') ∈ newq ∧ d' ≤ (if s = s₀ then d₀ else phi s) + 1 := by
  intro s hs hTs hps s' hs' hls'
  rcases Finset.mem_insert.mp hs with rfl | hsv
  · rw [if_pos rfl] at hps ⊢
    exact hs₀case hTs hps s' hs' hls'
  · have hne : s ≠ s₀ := fun he => hs₀nv (he ▸ hsv)
    rw [if_neg hne] at hps ⊢
    rcases hv3 s hsv hTs hps s' hs' hls' with ⟨hv', hle⟩ | ⟨d', hd'm, hd'le⟩
    · refine Or.inl ⟨Finset.mem_insert_of_mem hv', ?_⟩
      have hne' : s' ≠ s₀ := fun he => hs₀nv (he ▸ hv')
      rw [if_neg hne']
      exact hle
    · rcases List.mem_cons.mp hd'm with heq | hmr
      · have hs'₀ : s' = s₀ := congrArg Prod.fst heq
        have hd'₀ : d' = d₀ := congrArg Prod.snd heq
        refine Or.inl ⟨hs'₀ ▸ Finset.mem_insert_self _ _, ?_⟩
        rw [hs'₀, if_pos rfl]
        have := hvqhead s hsv
        omega
      · exact Or.inr ⟨d', hrest _ hmr, hd'le⟩

theorem sorted_of_const {l : List Nat} {k : Nat} (h : ∀ b ∈ l, b = k) :
    l.Sorted (fun a b => a ≤ b) := by
  induction l with
  | nil => simp
  | cons x xs ih =>
    refine List.sorted_cons.mpr ⟨?_, ih (fun b hb => h b (List.mem_cons_of_mem _ hb))⟩
    intro b hb
    rw [h x (List.mem_cons_self _ _), h b (List.mem_cons_of_mem _ hb)]

theorem genLoop_complete (g : Grammar) (D L : Nat) :
    ∀ (f : Nat) (q : List (Str × Nat)) (v r res : Finset Str) (phi : Str → Nat),
      measureQ g D q < f →
      genLoop g D L f q v r = some res →
      (∀ s ∈ v, s.length ≤ L) →
      (∀ s ∈ v, allTerminal s = true → strip s ∈ r) →
      (∀ s ∈ v, allTerminal s = false → phi s < D →
        ∀ s' ∈ expand g s, s'.length ≤ L →
          (s' ∈ v ∧ phi s' ≤ phi s + 1) ∨ ∃ d', (s', d') ∈ q ∧ d' ≤ phi s + 1) →
      ((q.map (fun sd => sd.2)).Sorted (fun a b => a ≤ b)) →
      (∀ a ∈ q, ∀ b ∈ q, a.2 ≤ b.2 + 1) →
      (∀ s ∈ v, ∀ b ∈ q, phi s ≤ b.2) →
      ∀ sd ∈ q, ∀ t, allTerminal t = true → t.length ≤ L →
        ReachF g L sd.1 (D - sd.2) t → strip t ∈ res := by
  intro f
  induction f with
  | zero => intro q v r res phi hm; exact absurd hm (Nat.not_lt_zero _)
  | succ f ih =>
    intro q v r res phi hm h hv1 hv2 hv3 hq1 hq2 hvq
    match q with
    | [] => intro sd hsd; exact absurd hsd (List.not_mem_nil _)
    | (s₀, d₀) :: rest =>
      have hpow : 0 < (maxProds g + 1) ^ (D + 1 - d₀) := pow_pos (Nat.succ_pos _) _
      have hcns := measureQ_cons g D s₀ d₀ rest
      have hmrest : measureQ g D rest < f := by omega
      have hq1' : (rest.map (fun sd => sd.2)).Sorted (fun a b => a ≤ b) :=
        (List.sorted_cons.mp hq1).2
      have hd₀le : ∀ b ∈ rest, d₀ ≤ b.2 := by
        intro b hb
        exact (List.sorted_cons.mp hq1).1 b.2 (List.mem_map_of_mem _ hb)
      have hq2r : ∀ a ∈ rest, ∀ b ∈ rest, a.2 ≤ b.2 + 1 :=
        fun a ha b hb => hq2 a (List.mem_cons_of_mem _ ha) b (List.mem_cons_of_mem _ hb)
      have hvqr : ∀ s ∈ v, ∀ b ∈ rest, phi s ≤ b.2 :=
        fun s hs b hb => hvq s hs b (List.mem_cons_of_mem _ hb)
      have hvqhead : ∀ s ∈ v, phi s ≤ d₀ :=
        fun s hs => hvq s hs (s₀, d₀) (List.mem_cons_self _ _)
      by_cases h1 : L < s₀.length ∨ s₀ ∈ v
      · -- the popped entry is skipped (too long or already visited)
        rw [genLoop_skip h1] at h
        have hv3' : ∀ s ∈ v, allTerminal s = false → phi s < D →
            ∀ s' ∈ expand g s, s'.length ≤ L →
              (s' ∈ v ∧ phi s' ≤ phi s + 1) ∨
                ∃ d', (s', d') ∈ rest ∧ d' ≤ phi s + 1 := by
          intro s hs hTs hps s' hs' hls'
          rcases hv3 s hs hTs hps s' hs' hls' with hvd | ⟨d', hd'm, hd'le⟩
          · exact Or.inl hvd
          · rcases List.mem_cons.mp hd'm with heq | hmr
            · have hs'₀ : s' = s₀ := congrArg Prod.fst heq
              have hd'₀ : d' = d₀ := congrArg Prod.snd heq
              rcases h1 with h1a | h1b
              · exact absurd hls' (by rw [hs'₀]; omega)
              · refine Or.inl ⟨hs'₀ ▸ h1b, ?_⟩
                have := hvqhead s₀ h1b
                rw [hs'₀]
                omega
            · exact Or.inr ⟨d', hmr, hd'le⟩
        have hCa' := ih rest v r res phi hmrest h hv1 hv2 hv3' hq1' hq2r hvqr
        intro sd hsd t ht htl hre
        rcases List.mem_cons.mp hsd with heq | hmr
        · subst heq
          have hre' : ReachF g L s₀ (D - d₀) t := hre
          rcases h1 with h1a | h1b
          · have := ReachF.start_length_le hre' htl
            exact absurd this (by omega)
          · have hphile := hvqhead s₀ h1b
            exact reach_cover g D L rest v r res phi hv2 hv3'
              (genLoop_subset g D L f rest v r res h) hCa' hre' ht htl h1b (by omega)
        · exact hCa' sd hmr t ht htl hre
      · have hs₀nv : s₀ ∉ v := fun hh => h1 (Or.inr hh)
        have hlen : s₀.length ≤ L := le_of_not_lt (fun hh => h1 (Or.inl hh))
        by_cases hT : allTerminal s₀ = true
        · -- all-terminal: contributes its stripped string
          rw [genLoop_term h1 hT] at h
          have hv2B : ∀ s ∈ insert s₀ v, allTerminal s = true →
              strip s ∈ insert (strip s₀) r := by
            intro s hs hTs
            rcases Finset.mem_insert.mp hs with rfl | hs
            · exact Finset.mem_insert_self _ _
            · exact Finset.mem_insert_of_mem (hv2 s hs hTs)
          have hv3B := hv3_shift hs₀nv hvqhead hv3 (fun e he => he)
            (by intro hTs; rw [hT] at hTs; exact absurd hTs (by simp))
          have hvqB := hvq_shift hs₀nv hd₀le hvqr
          have hCa' := ih rest (insert s₀ v) (insert (strip s₀) r) res
            (fun x => if x = s₀ then d₀ else phi x)
            hmrest h (hv1_shift hv1 hlen) hv2B hv3B hq1' hq2r hvqB
          intro sd hsd t ht htl hre
          rcases List.mem_cons.mp hsd with heq | hmr
          · subst heq
            have hre' : ReachF g L s₀ (D - d₀) t := hre
            have ht₀ : t = s₀ := ReachF.eq_of_expand_nil hre' (allTerminal_expand_nil hT)
            subst ht₀
            exact genLoop_subset g D L f rest _ _ res h (Finset.mem_insert_self _ _)
          · exact hCa' sd hmr t ht htl hre
        · have hT' : allTerminal s₀ = false := by simpa using hT
          have hv2K := hv2_shift_keep hv2 hT'
          by_cases h3 : D ≤ d₀
          · -- depth budget exhausted: branch abandoned
            rw [genLoop_depth h1 hT' h3] at h
            have hv3C := hv3_shift hs₀nv hvqhead hv3 (fun e he => he)
              (by intro _ hdlt; exact absurd hdlt (by omega))
            have hvqC := hvq_shift hs₀nv hd₀le hvqr
            have hCa' := ih rest (insert s₀ v) r res
              (fun x => if x = s₀ then d₀ else phi x)
              hmrest h (hv1_shift hv1 hlen) hv2K hv3C hq1' hq2r hvqC
            intro sd hsd t ht htl hre
            rcases List.mem_cons.mp hsd with heq | hmr
            · subst heq
              have hre' : ReachF g L s₀ (D - d₀) t := hre
              have hz : D - d₀ = 0 := by omega
              rw [hz] at hre'
              have ht₀ : t = s₀ := ReachF.eq_of_zero hre'
              subst ht₀
              rw [hT'] at ht
              exact absurd ht (by simp)
            · exact hCa' sd hmr t ht htl hre
          · rcases hsp : leftSplit s₀ with _ | ⟨pre, c, post⟩
            · -- no non-terminal found (unreachable in practice): branch dropped
              rw [genLoop_nosplit h1 hT' h3 hsp] at h
              have hnil : expand g s₀ = [] := expand_nil_of_split_none hsp
              have hv3D := hv3_shift hs₀nv hvqhead hv3 (fun e he => he)
                (by intro _ _ s' hs'; rw [hnil] at hs'; exact absurd hs' (List.not_mem_nil _))
              have hvqD := hvq_shift hs₀nv hd₀le hvqr
              have hCa' := ih rest (insert s₀ v) r res
                (fun x => if x = s₀ then d₀ else phi x)
                hmrest h (hv1_shift hv1 hlen) hv2K hv3D hq1' hq2r hvqD
              intro sd hsd t ht htl hre
              rcases List.mem_cons.mp hsd with heq | hmr
              · subst heq
                have hre' : ReachF g L s₀ (D - d₀) t := hre
                have ht₀ : t = s₀ := ReachF.eq_of_expand_nil hre' hnil
                subst ht₀
                rw [hT'] at ht
                exact absurd ht (by simp)
              · exact hCa' sd hmr t ht htl hre
            · rcases hlk : alookup g [c] with _ | prods
              · -- leftmost non-terminal has no productions: dead end
                rw [genLoop_noprods h1 hT' h3 hsp hlk] at h
                have hnil : expand g s₀ = [] := expand_nil_of_no_prods hsp hlk
                have hv3D := hv3_shift hs₀nv hvqhead hv3 (fun e he => he)
                  (by intro _ _ s' hs'; rw [hnil] at hs'; exact absurd hs' (List.not_mem_nil _))
                have hvqD := hvq_shift hs₀nv hd₀le hvqr
                have hCa' := ih rest (insert s₀ v) r res
                  (fun x => if x = s₀ then d₀ else phi x)
                  hmrest h (hv1_shift hv1 hlen) hv2K hv3D hq1' hq2r hvqD
                intro sd hsd t ht htl hre
                rcases List.mem_cons.mp hsd with heq | hmr
                · subst heq
                  have hre' : ReachF g L s₀ (D - d₀) t := hre
                  have ht₀ : t = s₀ := ReachF.eq_of_expand_nil hre' hnil
                  subst ht₀
                  rw [hT'] at ht
                  exact absurd ht (by simp)
                · exact hCa' sd hmr t ht htl hre
              · -- expansion: successors are enqueued at depth d₀+1
                rw [genLoop_expand h1 hT' h3 hsp hlk] at h
                have hexp : expand g s₀ = prods.map (fun p => pre ++ p ++ post) :=
                  expand_of_split hsp hlk
                have hlt := measureQ_expand_lt (show d₀ < D by omega) hlk s₀ pre post rest
                have hmq' : measureQ g D
                    (rest ++ prods.map (fun p => (pre ++ p ++ post, d₀ + 1))) < f := by
                  omega
                have hmemnew : ∀ p ∈ prods,
                    (pre ++ p ++ post, d₀ + 1) ∈
                      rest ++ prods.map (fun p => (pre ++ p ++ post, d₀ + 1)) := by
                  intro p hp
                  exact List.mem_append_right _ (List.mem_map.mpr ⟨p, hp, rfl⟩)
                have hq'mem : ∀ x ∈ rest ++ prods.map (fun p => (pre ++ p ++ post, d₀ + 1)),
                    x ∈ rest ∨ x.2 = d₀ + 1 := by
                  intro x hx
                  rcases List.mem_append.mp hx with hx1 | hx2
                  · exact Or.inl hx1
                  · rcases List.mem_map.mp hx2 with ⟨p, hp, rfl⟩
                    exact Or.inr rfl
                have hq1E : ((rest ++ prods.map (fun p => (pre ++ p ++ post, d₀ + 1))).map
                    (fun sd => sd.2)).Sorted (fun a b => a ≤ b) := by
                  rw [List.map_append, List.Sorted, List.pairwise_append]
                  refine ⟨hq1', ?_, ?_⟩
                  · refine sorted_of_const (k := d₀ + 1) ?_
                    intro b hb
                    rcases List.mem_map.mp hb with ⟨e, he, rfl⟩
                    rcases List.mem_map.mp he with ⟨p, hp, rfl⟩
                    rfl
                  · intro a ha b hb
                    rcases List.mem_map.mp ha with ⟨e, he, rfl⟩
                    rcases List.mem_map.mp hb with ⟨e', he', rfl⟩
                    rcases List.mem_map.mp he' with ⟨p, hp, rfl⟩
                    have := hq2 e (List.mem_cons_of_mem _ he) (s₀, d₀) (List.mem_cons_self _ _)
                    show e.2 ≤ d₀ + 1
                    omega
                have hq2E : ∀ a ∈ rest ++ prods.map (fun p => (pre ++ p ++ post, d₀ + 1)),
                    ∀ b ∈ rest ++ prods.map (fun p => (pre ++ p ++ post, d₀ + 1)),
                      a.2 ≤ b.2 + 1 := by
                  intro a ha b hb
                  rcases hq'mem a ha with ha1 | ha2 <;> rcases hq'mem b hb with hb1 | hb2
                  · exact hq2r a ha1 b hb1
                  · have := hq2 a (List.mem_cons_of_mem _ ha1) (s₀, d₀)
                      (List.mem_cons_self _ _)
                    omega
                  · have := hd₀le b hb1
                    omega
                  · omega
                have hvqE := hvq_shift hs₀nv
                  (by
                    intro b hb
                    rcases hq'mem b hb with hb1 | hb2
                    · exact hd₀le b hb1
                    · omega)
                  (by
                    intro s hs b hb
                    rcases hq'mem b hb with hb1 | hb2
                    · exact hvqr s hs b hb1
                    · have := hvqhead s hs
                      omega)
                have hv3E := hv3_shift hs₀nv hvqhead hv3
                  (fun e he => List.mem_append_left _ he)
                  (by
                    intro hTs hdlt s' hs' hls'
                    rw [hexp] at hs'
                    rcases List.mem_map.mp hs' with ⟨p, hp, rfl⟩
                    exact Or.inr ⟨d₀ + 1, hmemnew p hp, by omega⟩)
                have hCa' := ih (rest ++ prods.map (fun p => (pre ++ p ++ post, d₀ + 1)))
                  (insert s₀ v) r res (fun x => if x = s₀ then d₀ else phi x)
                  hmq' h (hv1_shift hv1 hlen) hv2K hv3E hq1E hq2E hvqE
                intro sd hsd t ht htl hre
                rcases List.mem_cons.mp hsd with heq | hmr
                · subst heq
                  have hre' : ReachF g L s₀ (D - d₀) t := hre
                  generalize hgen : D - d₀ = n at hre'
                  cases hre' with
                  | refl =>
                    rw [hT'] at ht
                    exact absurd ht (by simp)
                  | step hlenS hmemS hsubS =>
                    rename_i s' k
                    rw [hexp] at hmemS
                    rcases List.mem_map.mp hmemS with ⟨p, hp, rfl⟩
                    refine hCa' (pre ++ p ++ post, d₀ + 1) (hmemnew p hp) t ht htl ?_
                    show ReachF g L (pre ++ p ++ post) (D - (d₀ + 1)) t
                    exact ReachF.mono_k hsubS (by omega)
                · exact hCa' sd (List.mem_append_left _ hmr) t ht htl hre

/-! ## The characterization of `generate_strings` -/

theorem mem_generate_strings (g : Grammar) (start : Str) (D L : Nat) (w : Str) :
    w ∈ generate_strings g start D L ↔
      ∃ t, ReachF g L start D t ∧ allTerminal t = true ∧ t.length ≤ L ∧ strip t = w := by
  have hfm : measureQ g D [(start, 0)] < fuelFor g D := by
    have hone : measureQ g D [(start, 0)] = (maxProds g + 1) ^ (D + 1) := by
      simp [measureQ]
    rw [hone]; unfold fuelFor; omega
  obtain ⟨res, hres⟩ := Option.isSome_iff_exists.mp (genLoop_isSome g D L _ _ ∅ ∅ hfm)
  have hgen : generate_strings g start D L = res := by
    unfold generate_strings
    rw [hres]
    rfl
  constructor
  · intro hw
    rw [hgen] at hw
    refine genLoop_sound g D L start _ _ _ _ res hres ?_ ?_ w hw
    · intro sd hsd
      rcases List.mem_cons.mp hsd with heq | hmr
      · subst heq
        exact ⟨ReachF.refl start 0, Nat.zero_le D⟩
      · exact absurd hmr (List.not_mem_nil _)
    · intro u hu
      exact absurd hu (Finset.not_mem_empty _)
  · rintro ⟨t, hre, hT, htl, rfl⟩
    rw [hgen]
    refine genLoop_complete g D L _ _ _ _ res (fun _ => 0) hfm hres
      (fun s hs => absurd hs (Finset.not_mem_empty _))
      (fun s hs => absurd hs (Finset.not_mem_empty _))
      (fun s hs => absurd hs (Finset.not_mem_empty _))
      (by simp)
      ?_
      (fun s hs => absurd hs (Finset.not_mem_empty _))
      (start, 0) (List.mem_cons_self _ _) t hT htl ?_
    · intro a ha b hb
      rcases List.mem_cons.mp ha with rfl | h'
      · rcases List.mem_cons.mp hb with rfl | h''
        · omega
        · exact absurd h'' (List.not_mem_nil _)
      · exact absurd h' (List.not_mem_nil _)
    · show ReachF g L start (D - 0) t
      simpa using hre

/-! ## Claim theorems -/

/-- Claim C2: every string returned by `generate_strings` has length at most
`maxLen` and contains no uppercase (non-terminal) character. -/
theorem generate_strings_bounded {g : Grammar} {start w : Str} {D L : Nat}
    (h : w ∈ generate_strings g start D L) :
    w.length ≤ L ∧ ∀ c ∈ w, c.isUpper = false := by
  rcases (mem_generate_strings g start D L w).mp h with ⟨t, hre, hT, htl, rfl⟩
  have hT2 : ∀ c ∈ t, c.isUpper = false := by
    simpa [allTerminal, List.all_eq_true] using hT
  exact ⟨le_trans (strip_length_le t) htl,
    fun c hc => hT2 c (mem_of_mem_strip hc)⟩

/-- Witness for C2 at a concrete run. -/
theorem generate_strings_bounded_witness :
    ['a'] ∈ generate_strings [(['S'], [['a']])] ['S'] 1 5 ∧
      (['a'] : Str).length ≤ 5 ∧ ∀ c ∈ (['a'] : Str), c.isUpper = false :=
  ⟨by decide,
    (generate_strings_bounded
      (by decide : ['a'] ∈ generate_strings [(['S'], [['a']])] ['S'] 1 5)).1,
    (generate_strings_bounded
      (by decide : ['a'] ∈ generate_strings [(['S'], [['a']])] ['S'] 1 5)).2⟩

/-- Claim C3: the BFS work-queue loop of `generate_strings` terminates — some
finite fuel (number of iterations) drains the queue and yields the result. -/
theorem generate_strings_terminates (g : Grammar) (start : Str) (D L : Nat) :
    ∃ f, genLoop g D L f [(start, 0)] ∅ ∅ = some (generate_strings g start D L) := by
  have hfm : measureQ g D [(start, 0)] < fuelFor g D := by
    have hone : measureQ g D [(start, 0)] = (maxProds g + 1) ^ (D + 1) := by
      simp [measureQ]
    rw [hone]; unfold fuelFor; omega
  obtain ⟨res, hres⟩ := Option.isSome_iff_exists.mp (genLoop_isSome g D L _ _ ∅ ∅ hfm)
  refine ⟨fuelFor g D, ?_⟩
  rw [hres]
  unfold generate_strings
  rw [hres]
  rfl

/-- Claim C4: `generate_strings` is monotonic in both bounds. -/
theorem generate_strings_mono {g : Grammar} {start : Str} {D D' L L' : Nat}
    (hD : D ≤ D') (hL : L ≤ L') :
    generate_strings g start D L ⊆ generate_strings g start D' L' := by
  intro w hw
  rcases (mem_generate_strings g start D L w).mp hw with ⟨t, hre, hT, htl, rfl⟩
  exact (mem_generate_strings g start D' L' _).mpr
    ⟨t, ReachF.mono_k (ReachF.mono_L hL hre) hD, hT, le_trans htl hL, rfl⟩

/-- Witness for C4 at concrete bounds. -/
theorem generate_strings_mono_witness :
    1 ≤ 2 ∧ 2 ≤ 3 ∧
      generate_strings [(['S'], [['a']])] ['S'] 1 2 ⊆
        generate_strings [(['S'], [['a']])] ['S'] 2 3 :=
  ⟨by decide, by decide, generate_strings_mono (by decide) (by decide)⟩

/-- Claim C9 (amended): a start symbol that is a single uppercase character
with no entry as a grammar key enumerates the empty language. -/
theorem generate_strings_undefined_start (g : Grammar) (c : Char) (D L : Nat)
    (hc : c.isUpper = true) (hlk : alookup g [c] = none) :
    generate_strings g [c] D L = ∅ := by
  ext w
  rw [mem_generate_strings]
  simp only [Finset.not_mem_empty, iff_false]
  rintro ⟨t, hre, hT, htl, hst⟩
  have hsp : leftSplit [c] = some ([], c, []) := by simp [leftSplit, hc]
  have hnil : expand g [c] = [] := expand_nil_of_no_prods hsp hlk
  have ht : t = [c] := ReachF.eq_of_expand_nil hre hnil
  subst ht
  rw [show allTerminal [c] = false by simp [allTerminal, hc]] at hT
  exact absurd hT (by simp)

/-- Witness for the amended C9 at a concrete grammar. -/
theorem generate_strings_undefined_start_witness :
    ('A'.isUpper = true) ∧ alookup ([(['B'], [['b']])] : Grammar) ['A'] = none ∧
      generate_strings [(['B'], [['b']])] ['A'] 3 5 = ∅ :=
  ⟨by decide, by decide,
    generate_strings_undefined_start [(['B'], [['b']])] 'A' 3 5 (by decide) (by decide)⟩

/-- Counterexample to C9 as stated: the start string `"a"` is absent as a key
of the empty grammar, yet enumeration returns `{"a"}`, not the empty set. -/
theorem generate_strings_undefined_start_cx :
    alookup ([] : Grammar) ['a'] = none ∧
      generate_strings ([] : Grammar) ['a'] 0 5 ≠ ∅ :=
  ⟨rfl, by decide⟩

/-- Claim C10: an all-terminal start string within the length bound enumerates
exactly its own epsilon-stripped value, for any grammar and depth. -/
theorem generate_strings_terminal_start (g : Grammar) (start : Str) (D L : Nat)
    (h1 : allTerminal start = true) (h2 : start.length ≤ L) :
    generate_strings g start D L = {strip start} := by
  ext w
  rw [mem_generate_strings, Finset.mem_singleton]
  constructor
  · rintro ⟨t, hre, hT, htl, rfl⟩
    rw [ReachF.eq_of_expand_nil hre (allTerminal_expand_nil h1)]
  · rintro rfl
    exact ⟨start, ReachF.refl start D, h1, h2, rfl⟩

/-- Witness for C10: the start string `"a*b"` yields exactly `{"ab"}`. -/
theorem generate_strings_terminal_start_witness :
    allTerminal ['a', '*', 'b'] = true ∧ (['a', '*', 'b'] : Str).length ≤ 5 ∧
      generate_strings [(['S'], [['c']])] ['a', '*', 'b'] 3 5 = {['a', 'b']} :=
  ⟨by decide, by decide,
    (generate_strings_terminal_start [(['S'], [['c']])] ['a', '*', 'b'] 3 5
      (by decide) (by decide)).trans (by decide)⟩

/-! ## Language extensionality: `generate_strings` depends only on the
membership semantics of production lookup -/

/-- `p` is one of `k`'s productions in `g`. -/
def prodMem (g : Grammar) (k p : Str) : Prop :=
  ∃ ps, alookup g k = some ps ∧ p ∈ ps

theorem expand_ext {g₁ g₂ : Grammar}
    (h : ∀ k p, prodMem g₁ k p ↔ prodMem g₂ k p) (s u : Str) :
    u ∈ expand g₁ s ↔ u ∈ expand g₂ s := by
  rcases hsp : leftSplit s with _ | ⟨pre, c, post⟩
  · rw [expand_nil_of_split_none hsp, expand_nil_of_split_none hsp]
  · have hmem : ∀ (g : Grammar),
        u ∈ expand g s ↔ ∃ p, prodMem g [c] p ∧ u = pre ++ p ++ post := by
      intro g
      rcases hlk : alookup g [c] with _ | prods
      · rw [expand_nil_of_no_prods hsp hlk]
        simp only [List.not_mem_nil, false_iff]
        rintro ⟨p, ⟨ps, hps, _⟩, _⟩
        rw [hlk] at hps
        exact absurd hps (by simp)
      · rw [expand_of_split hsp hlk]
        constructor
        · intro hu
          rcases List.mem_map.mp hu with ⟨p, hp, rfl⟩
          exact ⟨p, ⟨prods, hlk, hp⟩, rfl⟩
        · rintro ⟨p, ⟨ps, hps, hpm⟩, rfl⟩
          rw [hlk] at hps
          injection hps with he
          subst he
          exact List.mem_map.mpr ⟨p, hpm, rfl⟩
    rw [hmem g₁, hmem g₂]
    constructor
    · rintro ⟨p, hp, rfl⟩; exact ⟨p, (h [c] p).mp hp, rfl⟩
    · rintro ⟨p, hp, rfl⟩; exact ⟨p, (h [c] p).mpr hp, rfl⟩

theorem ReachF_ext {g₁ g₂ : Grammar}
    (hx : ∀ s u, u ∈ expand g₁ s ↔ u ∈ expand g₂ s) {L : Nat} {s t : Str} {k : Nat}
    (h : ReachF g₁ L s k t) : ReachF g₂ L s k t := by
  induction h with
  | refl s k => exact ReachF.refl s k
  | step hlen hmem h ih => exact ReachF.step hlen ((hx _ _).mp hmem) ih

theorem generate_strings_ext {g₁ g₂ : Grammar}
    (h : ∀ k p, prodMem g₁ k p ↔ prodMem g₂ k p) (start : Str) (D L : Nat) :
    generate_strings g₁ start D L = generate_strings g₂ start D L := by
  ext w
  rw [mem_generate_strings, mem_generate_strings]
  constructor
  · rintro ⟨t, hre, hT, htl, rfl⟩
    exact ⟨t, ReachF_ext (expand_ext h) hre, hT, htl, rfl⟩
  · rintro ⟨t, hre, hT, htl, rfl⟩
    exact ⟨t, ReachF_ext (expand_ext (fun k p => (h k p).symm)) hre, hT, htl, rfl⟩

/-! ## `apply_mapping` under the identity mapping -/

theorem alookup_id_map (l : List Str) (k : Str) :
    alookup (l.map (fun x => (x, x))) k = if k ∈ l then some k else none := by
  induction l with
  | nil => simp [alookup]
  | cons x xs ih =>
    rw [List.map_cons]
    by_cases hx : x = k
    · subst hx
      have h1 : alookup ((x, x) :: xs.map (fun y => (y, y))) x = some x := by
        unfold alookup
        rw [List.find?_cons_of_pos _ (by simp)]
        rfl
      rw [h1, if_pos (List.mem_cons_self _ _)]
    · have h1 : alookup ((x, x) :: xs.map (fun y => (y, y))) k =
          alookup (xs.map (fun y => (y, y))) k := by
        unfold alookup
        rw [List.find?_cons_of_neg _ (by simp [hx])]
      rw [h1, ih]
      by_cases hk : k ∈ xs
      · rw [if_pos hk, if_pos (List.mem_cons_of_mem _ hk)]
      · rw [if_neg hk, if_neg (by simp [hk, Ne.symm hx])]

theorem mapChar_id (g : Grammar) (c : Char) : mapChar (idMapping g) c = [c] := by
  unfold mapChar idMapping
  by_cases hc : c.isUpper
  · rw [if_pos hc, alookup_id_map]
    by_cases hm : [c] ∈ (g.map (fun e => e.1)).dedup
    · rw [if_pos hm]; rfl
    · rw [if_neg hm]; rfl
  · rw [if_neg hc]

theorem alookup_id_getD (g : Grammar) (k : Str) :
    (alookup (idMapping g) k).getD k = k := by
  unfold idMapping
  rw [alookup_id_map]
  by_cases hm : k ∈ (g.map (fun e => e.1)).dedup
  · rw [if_pos hm]; rfl
  · rw [if_neg hm]; rfl

theorem flatten_map_singleton (l : Str) : (l.map (fun c => [c])).flatten = l := by
  induction l with
  | nil => rfl
  | cons c cs ih => simp [ih]

theorem addProds_of_not_mem {acc : Grammar} {k : Str} (ps : List Str)
    (h : ∀ e ∈ acc, e.1 ≠ k) : addProds acc k ps = acc ++ [(k, ps)] := by
  induction acc with
  | nil => rfl
  | cons e rest ih =>
    unfold addProds
    rw [if_neg (h e (List.mem_cons_self _ _)), ih (fun e' he' => h e' (List.mem_cons_of_mem _ he'))]
    rfl

theorem foldl_addProds_id :
    ∀ (es acc : Grammar),
      (es.map (fun e => e.1)).Nodup →
      (∀ e ∈ es, ∀ a ∈ acc, a.1 ≠ e.1) →
      es.foldl (fun acc e => addProds acc e.1 e.2) acc = acc ++ es := by
  intro es
  induction es with
  | nil => intro acc _ _; simp
  | cons e es ih =>
    intro acc hnd hdisj
    have hnd' := List.nodup_cons.mp hnd
    rw [List.foldl_cons,
      addProds_of_not_mem e.2 (fun a ha => hdisj e (List.mem_cons_self _ _) a ha),
      ih (acc ++ [e]) hnd'.2 ?_]
    · simp
    · intro e' he' a ha
      rcases List.mem_append.mp ha with ha1 | ha2
      · exact hdisj e' (List.mem_cons_of_mem _ he') a ha1
      · rcases List.mem_singleton.mp ha2 with rfl
        intro hcontra
        refine hnd'.1 ?_
        show a.1 ∈ List.map (fun e => e.1) es
        rw [hcontra]
        exact List.mem_map_of_mem _ he'

theorem apply_mapping_id (g : Grammar) (hnd : (g.map (fun e => e.1)).Nodup) :
    apply_mapping g (idMapping g) = g.map (fun e => (e.1, e.2.dedup)) := by
  have hprod : ∀ ps : List Str,
      ps.map (fun prod => (prod.map (mapChar (idMapping g))).flatten) = ps := by
    intro ps
    have hone : ∀ prod : Str, (prod.map (mapChar (idMapping g))).flatten = prod := by
      intro prod
      have h1 : prod.map (mapChar (idMapping g)) = prod.map (fun c => [c]) :=
        List.map_congr_left (fun c _ => mapChar_id g c)
      rw [h1, flatten_map_singleton]
    calc ps.map (fun prod => (prod.map (mapChar (idMapping g))).flatten)
        = ps.map id := List.map_congr_left (fun p _ => hone p)
      _ = ps := List.map_id ps
  have hfun : (fun (acc : Grammar) (e : Str × List Str) =>
      addProds acc ((alookup (idMapping g) e.1).getD e.1)
        (e.2.map (fun prod => (prod.map (mapChar (idMapping g))).flatten))) =
      (fun acc e => addProds acc e.1 e.2) := by
    funext acc e
    rw [alookup_id_getD, hprod]
  show (g.foldl (fun acc e =>
      addProds acc ((alookup (idMapping g) e.1).getD e.1)
        (e.2.map (fun prod => (prod.map (mapChar (idMapping g))).flatten))) []).map
      (fun e => (e.1, e.2.dedup)) = g.map (fun e => (e.1, e.2.dedup))
  rw [hfun, foldl_addProds_id g [] hnd (fun e _ a ha => absurd ha (List.not_mem_nil _))]
  rw [List.nil_append]

theorem alookup_map_entry {α β : Type} (F : α → β) (l : List (Str × α)) (k : Str) :
    alookup (l.map (fun e => (e.1, F e.2))) k = (alookup l k).map F := by
  induction l with
  | nil => rfl
  | cons e rest ih =>
    by_cases hk : e.1 = k
    · unfold alookup
      rw [List.map_cons, List.find?_cons_of_pos _ (by simp [hk]),
        List.find?_cons_of_pos _ (by simp [hk])]
      rfl
    · unfold alookup
      rw [List.map_cons, List.find?_cons_of_neg _ (by simp [hk]),
        List.find?_cons_of_neg _ (by simp [hk])]
      exact ih

theorem prodMem_apply_id (g : Grammar) (hnd : (g.map (fun e => e.1)).Nodup) (k p : Str) :
    prodMem (apply_mapping g (idMapping g)) k p ↔ prodMem g k p := by
  rw [prodMem, prodMem, apply_mapping_id g hnd,
    alookup_map_entry (fun ps : List Str => ps.dedup) g k]
  cases alookup g k with
  | none => simp
  | some ps => simp [List.mem_dedup]

/-- Claim C7: applying the identity mapping on a grammar's non-terminal
alphabet preserves the enumerated language for every start symbol and all
bounds (assuming the grammar's keys are distinct, the dict invariant). -/
theorem apply_mapping_identity_lang (g : Grammar) (hnd : (g.map (fun e => e.1)).Nodup)
    (start : Str) (D L : Nat) :
    generate_strings (apply_mapping g (idMapping g)) start D L =
      generate_strings g start D L :=
  generate_strings_ext (prodMem_apply_id g hnd) start D L

/-- Witness for C7 at a concrete grammar. -/
theorem apply_mapping_identity_lang_witness :
    (([(['S'], [['a']])] : Grammar).map (fun e => e.1)).Nodup ∧
      generate_strings (apply_mapping [(['S'], [['a']])] (idMapping [(['S'], [['a']])]))
          ['S'] 1 5 =
        generate_strings [(['S'], [['a']])] ['S'] 1 5 :=
  ⟨by decide, apply_mapping_identity_lang [(['S'], [['a']])] (by decide) ['S'] 1 5⟩

/-! ## The equivalence checker and the mapping search -/

/-- Claim C1: `check_equivalence` returns true exactly when the direct
enumerations agree, or the mapping search finds a mapping whose application
makes the enumerations (under the caller's bounds) agree. -/
theorem check_equivalence_iff (g1 g2 : Grammar) (s1 s2 : Str) (D L : Nat) :
    check_equivalence g1 g2 s1 s2 D L = true ↔
      generate_strings g1 s1 D L = generate_strings g2 s2 D L ∨
        ∃ m, try_symbol_mappings g1 g2 s1 s2 D = some m ∧
          generate_strings (apply_mapping g1 m) s2 D L = generate_strings g2 s2 D L := by
  simp only [check_equivalence]
  by_cases hd : generate_strings g1 s1 D L = generate_strings g2 s2 D L
  · rw [if_pos hd]
    simp [hd]
  · rw [if_neg hd]
    rcases hm : try_symbol_mappings g1 g2 s1 s2 D with _ | m
    · constructor
      · intro hfalse
        exact absurd hfalse (by simp)
      · rintro (hc | ⟨m', hm', _⟩)
        · exact absurd hc hd
        · exact absurd hm' (by simp)
    · simp only [decide_eq_true_eq]
      constructor
      · intro hb
        exact Or.inr ⟨m, rfl, hb⟩
      · rintro (hc | ⟨m', hm', hc⟩)
        · exact absurd hc hd
        · injection hm' with he
          subst he
          exact hc

/-- Claim C5: with more than 6 non-terminals in grammar 1 the mapping search
is skipped entirely and reports that no mapping was found. -/
theorem try_symbol_mappings_cutoff {g1 g2 : Grammar} {s1 s2 : Str} {D : Nat}
    (h : 6 < (find_non_terminals g1).card) :
    try_symbol_mappings g1 g2 s1 s2 D = none := by
  have hcard : (find_non_terminals g1).card = (g1.map (fun e => e.1)).dedup.length :=
    List.card_toFinset _
  simp only [try_symbol_mappings]
  rw [if_neg (by omega)]

/-- Witness for C5: a grammar with seven distinct non-terminals. -/
theorem try_symbol_mappings_cutoff_witness :
    6 < (find_non_terminals [(['A'], [['a']]), (['B'], [['a']]), (['C'], [['a']]),
      (['D'], [['a']]), (['E'], [['a']]), (['F'], [['a']]), (['G'], [['a']])]).card ∧
    try_symbol_mappings [(['A'], [['a']]), (['B'], [['a']]), (['C'], [['a']]),
      (['D'], [['a']]), (['E'], [['a']]), (['F'], [['a']]), (['G'], [['a']])]
      [] ['A'] ['Z'] 3 = none :=
  ⟨by decide, try_symbol_mappings_cutoff (by decide)⟩

/-- Claim C6: the comparison that accepts a mapping inside
`try_symbol_mappings` is made with the caller-supplied depth but the
implementation-default length cap 15 (the function takes no `max_len` at
all), so the returned mapping equalizes the two enumerations at cap 15. -/
theorem try_symbol_mappings_default_len {g1 g2 : Grammar} {s1 s2 : Str} {D : Nat}
    {m : Mapping} (h : try_symbol_mappings g1 g2 s1 s2 D = some m) :
    generate_strings (apply_mapping g1 m) s2 D 15 = generate_strings g2 s2 D 15 := by
  simp only [try_symbol_mappings] at h
  by_cases hle : (g1.map (fun e => e.1)).dedup.length ≤ 6
  · rw [if_pos hle] at h
    rcases List.exists_of_findSome?_eq_some h with ⟨perm, hperm, hfn⟩
    split at hfn
    · injection hfn with he
      subst he
      assumption
    · exact absurd hfn (by simp)
  · rw [if_neg hle] at h
    exact absurd h (by simp)

/-- Witness for C6 at a concrete pair of grammars on which a mapping is found. -/
theorem try_symbol_mappings_default_len_witness :
    try_symbol_mappings [(['S'], [['a']])] [(['T'], [['a']])] ['S'] ['T'] 1 =
        some [(['S'], ['T'])] ∧
      generate_strings (apply_mapping [(['S'], [['a']])] [(['S'], ['T'])]) ['T'] 1 15 =
        generate_strings [(['T'], [['a']])] ['T'] 1 15 :=
  ⟨by decide,
    @try_symbol_mappings_default_len [(['S'], [['a']])] [(['T'], [['a']])]
      ['S'] ['T'] 1 [(['S'], ['T'])] (by decide)⟩

/-- Claim C8 (amended): `analyze_grammar_structure` produces a features record
exactly for the grammar's keys, so a non-terminal referenced inside a
production but absent as a key gets no record at all. -/
theorem analyze_grammar_structure_keys (g : Grammar) (nt : Str) :
    (alookup (analyze_grammar_structure g) nt).isSome = (alookup g nt).isSome := by
  unfold analyze_grammar_structure
  rw [alookup_map_entry featuresOf g nt]
  cases alookup g nt with
  | none => rfl
  | some x => rfl

/-- Counterexample to C8 as stated: in `{S: [A]}` the non-terminal `A` is
referenced and undefined, yet `analyze_grammar_structure` yields no features
record for it (rather than an all-zero record). -/
theorem analyze_grammar_structure_cx :
    (∃ e ∈ ([(['S'], [['A']])] : Grammar), ∃ p ∈ e.2, 'A' ∈ p ∧ 'A'.isUpper = true) ∧
      alookup ([(['S'], [['A']])] : Grammar) ['A'] = none ∧
      alookup (analyze_grammar_structure [(['S'], [['A']])]) ['A'] = none :=
  ⟨by decide, rfl, rfl⟩
